import Mathlib

/-!
# Verification of the flagpp feature-flag registry

A shallow embedding of `src/include/flagpp.hpp` (namespace `flagpp`):
the value variant `FlagValue`, the `Flag` entity, the `FlagRegistry`
map, and the convenience layer in `namespace flags`.

Modelling choices, all taken from the C++ source:
* `FlagValue = std::variant<bool, int, double, std::string>`.  The C++
  `int` alternative is the platform `int` type, 32 bits on the platforms
  this header targets; we model it as `CInt`, the integers in
  `[-2^31, 2^31)`.  The `double` alternative is only ever stored and
  copied by the library (never computed with), so we model a double by
  its binary64 bit pattern `CDouble`; storing and retrieving is exact
  bit-pattern preservation, which is all the library does.
* The registry holds `std::shared_ptr<Flag>` values in an
  `unordered_map<std::string, shared_ptr<Flag>>`.  We model the set of
  live `Flag` objects as a heap (a list indexed by `Nat` identifiers)
  and the map as an association list from names to heap identifiers; a
  `shared_ptr<Flag>` handle is a heap identifier, so handle aliasing
  (two handles to the same object) is identifier equality.
* `FlagRegistry::update` mutates the pointed-to `Flag` in place
  (`flag->update(...)`), modelled by updating the heap cell, leaving
  the name map untouched.
-/

namespace Flagpp

/-- The C++ `int` alternative of the variant: the platform `int` is a
32-bit two's-complement integer, so exactly the integers in
`[-2^31, 2^31)` are storable. -/
def CInt := { x : Int // -(2 ^ 31) ≤ x ∧ x < 2 ^ 31 }

instance : DecidableEq CInt := fun a b =>
  decidable_of_iff (a.val = b.val) Subtype.ext_iff.symm

/-- The C++ `double` alternative.  The library only stores and copies
doubles, so a double is modelled by its binary64 bit pattern; copying
preserves the pattern exactly. -/
structure CDouble where
  bits : Nat
deriving DecidableEq, Repr

/-- `using FlagValue = std::variant<bool, int, double, std::string>;`
(flagpp.hpp line 38): a closed sum over exactly four alternatives. -/
inductive FlagValue where
  | b (x : Bool)
  | i (x : CInt)
  | d (x : CDouble)
  | s (x : String)
deriving DecidableEq

namespace FlagValue

/-- `Value::get<bool>()`: `holds_alternative` check, then `std::get`. -/
def getBool : FlagValue → Option Bool
  | .b x => some x
  | _ => none

/-- `Value::get<int>()`. -/
def getInt : FlagValue → Option CInt
  | .i x => some x
  | _ => none

/-- `Value::get<double>()`. -/
def getDouble : FlagValue → Option CDouble
  | .d x => some x
  | _ => none

/-- `Value::get<std::string>()`. -/
def getString : FlagValue → Option String
  | .s x => some x
  | _ => none

/-- `Value::operator bool()`: `get<bool>()` if present, else `false`. -/
def toBool (v : FlagValue) : Bool := v.getBool.getD false

end FlagValue

/-- `class Flag`: name, value, description (the `shared_mutex` guards
concurrent access and has no sequential content). -/
structure Flag where
  name : String
  value : FlagValue
  description : String
deriving DecidableEq

instance : Inhabited Flag := ⟨⟨"", .b false, ""⟩⟩

/-- `Flag::update`: replaces the stored value entirely (kind and
contents); name and description are untouched. -/
def Flag.update (f : Flag) (v : FlagValue) : Flag :=
  { f with value := v }

/-- Heap identifier standing for a `std::shared_ptr<Flag>` handle:
equal identifiers are handles to the same `Flag` object. -/
abbrev FlagId := Nat

/-- `class FlagRegistry`: the heap of live `Flag` objects plus the
`unordered_map` from names to handles. -/
structure Registry where
  heap : List Flag
  names : List (String × FlagId)
deriving DecidableEq

namespace Registry

/-- The freshly constructed (empty) singleton registry. -/
def empty : Registry := ⟨[], []⟩

/-- Dereference a handle: the `Flag` object it points to. -/
def flagAt (r : Registry) (id : FlagId) : Flag :=
  r.heap.getD id default

/-- `flags_.find(name)` on the map. -/
def find (r : Registry) (n : String) : Option (String × FlagId) :=
  r.names.find? (fun p => p.1 == n)

/-- `FlagRegistry::get`: handle if present, null otherwise. -/
def get (r : Registry) (n : String) : Option FlagId :=
  (r.find n).map (·.2)

/-- `FlagRegistry::exists`: `flags_.find(name) != flags_.end()`. -/
def hasFlag (r : Registry) (n : String) : Bool :=
  (r.find n).isSome

/-- `FlagRegistry::define`: if the name is already present return the
existing handle unchanged; otherwise construct a new `Flag` with the
given default value and description, insert it, and return its
handle. -/
def define (r : Registry) (n : String) (v : FlagValue) (d : String) :
    FlagId × Registry :=
  match r.find n with
  | some p => (p.2, r)
  | none =>
    let id := r.heap.length
    (id, ⟨r.heap ++ [⟨n, v, d⟩], r.names ++ [(n, id)]⟩)

/-- `FlagRegistry::update`: look the flag up; if absent return `false`
and change nothing; if present mutate the pointed-to `Flag` in place
via `Flag::update` and return `true`. -/
def update (r : Registry) (n : String) (v : FlagValue) :
    Bool × Registry :=
  match r.get n with
  | none => (false, r)
  | some id => (true, ⟨r.heap.set id ((r.flagAt id).update v), r.names⟩)

/-- `FlagRegistry::get_all`: one handle per map entry. -/
def get_all (r : Registry) : List FlagId :=
  r.names.map (·.2)

end Registry

namespace flags

/-- `flags::is_enabled`: `flag ? static_cast<bool>(flag->value()) : false`. -/
def is_enabled (r : Registry) (n : String) : Bool :=
  match r.get n with
  | none => false
  | some id => ((r.flagAt id).value).toBool

/-- `flags::get_value<bool>`: null handle gives empty, otherwise
`flag->value().get<bool>()`. -/
def get_value_bool (r : Registry) (n : String) : Option Bool :=
  match r.get n with
  | none => none
  | some id => ((r.flagAt id).value).getBool

/-- `flags::get_value<int>`. -/
def get_value_int (r : Registry) (n : String) : Option CInt :=
  match r.get n with
  | none => none
  | some id => ((r.flagAt id).value).getInt

/-- `flags::get_value<double>`. -/
def get_value_double (r : Registry) (n : String) : Option CDouble :=
  match r.get n with
  | none => none
  | some id => ((r.flagAt id).value).getDouble

/-- `flags::get_value<std::string>`. -/
def get_value_string (r : Registry) (n : String) : Option String :=
  match r.get n with
  | none => none
  | some id => ((r.flagAt id).value).getString

end flags

/-- Registry states reachable from the fresh singleton by the mutating
operations of the public API. -/
inductive Reachable : Registry → Prop
  | empty : Reachable Registry.empty
  | define (r : Registry) (n : String) (v : FlagValue) (d : String) :
      Reachable r → Reachable (r.define n v d).2
  | update (r : Registry) (n : String) (v : FlagValue) :
      Reachable r → Reachable (r.update n v).2

namespace Registry

/-! ### Basic lemmas about the registry operations -/

theorem hasFlag_eq_false_iff {r : Registry} {n : String} :
    r.hasFlag n = false ↔ r.find n = none := by
  cases h : r.find n <;> simp [hasFlag, h]

theorem hasFlag_eq_true_iff {r : Registry} {n : String} :
    r.hasFlag n = true ↔ ∃ p, r.find n = some p := by
  cases h : r.find n <;> simp [hasFlag, h]

theorem find_mem {r : Registry} {n : String} {p : String × FlagId}
    (h : r.find n = some p) : p ∈ r.names ∧ p.1 = n := by
  refine ⟨List.mem_of_find?_eq_some h, ?_⟩
  have := List.find?_some h
  simpa using this

theorem get_eq_some_iff {r : Registry} {n : String} {id : FlagId} :
    r.get n = some id ↔ ∃ p, r.find n = some p ∧ p.2 = id := by
  cases h : r.find n <;> simp [get, h]

theorem define_of_none {r : Registry} {n : String} (v : FlagValue) (d : String)
    (h : r.find n = none) :
    r.define n v d =
      (r.heap.length,
        ⟨r.heap ++ [⟨n, v, d⟩], r.names ++ [(n, r.heap.length)]⟩) := by
  simp [define, h]

theorem define_of_some {r : Registry} {n : String} (v : FlagValue) (d : String)
    {p : String × FlagId} (h : r.find n = some p) :
    r.define n v d = (p.2, r) := by
  simp [define, h]

theorem find_define_self {r : Registry} {n : String} (v : FlagValue) (d : String)
    (h : r.find n = none) :
    ((r.define n v d).2).find n = some (n, r.heap.length) := by
  rw [define_of_none v d h]
  simp only [find] at h ⊢
  simp [List.find?_append, h]

theorem flagAt_define_self {r : Registry} {n : String} (v : FlagValue) (d : String)
    (h : r.find n = none) :
    ((r.define n v d).2).flagAt r.heap.length = ⟨n, v, d⟩ := by
  rw [define_of_none v d h]
  simp [flagAt, List.getD_eq_getElem?_getD, List.getElem?_concat_length]

theorem find_define_preserved {r : Registry} {n m : String} {p : String × FlagId}
    (v : FlagValue) (d : String) (h : r.find n = some p) :
    ((r.define m v d).2).find n = some p := by
  cases hm : r.find m with
  | some q => rw [define_of_some v d hm]; exact h
  | none =>
    rw [define_of_none v d hm]
    simp only [find] at h ⊢
    simp [List.find?_append, h]

theorem flagAt_define_preserved {r : Registry} {m : String} {id : FlagId}
    (v : FlagValue) (d : String) (hid : id < r.heap.length) :
    ((r.define m v d).2).flagAt id = r.flagAt id := by
  cases hm : r.find m with
  | some q => rw [define_of_some v d hm]
  | none =>
    rw [define_of_none v d hm]
    simp [flagAt, List.getD_eq_getElem?_getD, List.getElem?_append_left hid]

theorem update_of_none {r : Registry} {n : String} (v : FlagValue)
    (h : r.get n = none) : r.update n v = (false, r) := by
  simp [update, h]

theorem update_of_some {r : Registry} {n : String} {id : FlagId} (v : FlagValue)
    (h : r.get n = some id) :
    r.update n v = (true, ⟨r.heap.set id ((r.flagAt id).update v), r.names⟩) := by
  simp [update, h]

theorem find_update_preserved {r : Registry} {n m : String} (v : FlagValue) :
    ((r.update m v).2).find n = r.find n := by
  cases hm : r.get m with
  | none => rw [update_of_none v hm]
  | some id => rw [update_of_some v hm]; rfl

theorem flagAt_update_self {r : Registry} {n : String} {id : FlagId}
    (v : FlagValue) (h : r.get n = some id) (hid : id < r.heap.length) :
    ((r.update n v).2).flagAt id = (r.flagAt id).update v := by
  rw [update_of_some v h]
  simp [flagAt, List.getD_eq_getElem?_getD, List.getElem?_set_self hid]

theorem flagAt_update_ne {r : Registry} {n : String} {id j : FlagId}
    (v : FlagValue) (h : r.get n = some id) (hne : id ≠ j) :
    ((r.update n v).2).flagAt j = r.flagAt j := by
  rw [update_of_some v h]
  simp [flagAt, List.getD_eq_getElem?_getD, List.getElem?_set_ne hne]

theorem heap_length_update {r : Registry} {n : String} (v : FlagValue) :
    ((r.update n v).2).heap.length = r.heap.length := by
  cases hm : r.get n with
  | none => rw [update_of_none v hm]
  | some id => rw [update_of_some v hm]; simp

/-! ### The registry well-formedness invariant -/

/-- Well-formedness: every map entry points into the heap at a `Flag`
whose stored name is the entry's key, and no name occurs twice. -/
def WF (r : Registry) : Prop :=
  (∀ p ∈ r.names, p.2 < r.heap.length ∧ (r.flagAt p.2).name = p.1) ∧
  (r.names.map Prod.fst).Nodup ∧ (r.names.map Prod.snd).Nodup

theorem wf_empty : WF Registry.empty := by
  refine ⟨?_, ?_, ?_⟩ <;> simp [Registry.empty]

theorem wf_define {r : Registry} (n : String) (v : FlagValue) (d : String)
    (h : WF r) : WF (r.define n v d).2 := by
  cases hm : r.find n with
  | some q => rw [define_of_some v d hm]; exact h
  | none =>
    rw [define_of_none v d hm]
    obtain ⟨hmap, hnodup, hids⟩ := h
    refine ⟨?_, ?_, ?_⟩
    · intro p hp
      rcases List.mem_append.mp hp with hold | hnew
      · obtain ⟨hlt, hname⟩ := hmap p hold
        refine ⟨by simpa using Nat.lt_succ_of_lt hlt, ?_⟩
        rw [show (⟨r.heap ++ [⟨n, v, d⟩], r.names ++ [(n, r.heap.length)]⟩ :
              Registry).flagAt p.2 = r.flagAt p.2 by
          simp [flagAt, List.getD_eq_getElem?_getD, List.getElem?_append_left hlt]]
        exact hname
      · simp only [List.mem_singleton] at hnew
        subst hnew
        refine ⟨by simp, ?_⟩
        simp [flagAt, List.getD_eq_getElem?_getD, List.getElem?_concat_length]
    · have hfresh : ∀ p ∈ r.names, p.1 ≠ n := by
        intro p hp
        have := List.find?_eq_none.mp hm p hp
        simpa using this
      simp only [List.map_append, List.map_cons, List.map_nil]
      rw [List.nodup_append]
      refine ⟨hnodup, List.nodup_singleton n, ?_⟩
      intro a ha hb
      simp only [List.mem_singleton] at hb
      subst hb
      obtain ⟨p, hp, hpa⟩ := List.mem_map.mp ha
      exact hfresh p hp hpa
    · simp only [List.map_append, List.map_cons, List.map_nil]
      rw [List.nodup_append]
      refine ⟨hids, List.nodup_singleton _, ?_⟩
      intro a ha hb
      simp only [List.mem_singleton] at hb
      subst hb
      obtain ⟨p, hp, hpa⟩ := List.mem_map.mp ha
      exact absurd (hpa ▸ (hmap p hp).1) (lt_irrefl _)

theorem wf_update {r : Registry} (n : String) (v : FlagValue)
    (h : WF r) : WF (r.update n v).2 := by
  cases hm : r.get n with
  | none => rw [update_of_none v hm]; exact h
  | some id =>
    rw [update_of_some v hm]
    obtain ⟨hmap, hnodup, hids⟩ := h
    refine ⟨?_, hnodup, hids⟩
    intro p hp
    obtain ⟨hlt, hname⟩ := hmap p hp
    refine ⟨by simpa using hlt, ?_⟩
    by_cases hij : id = p.2
    · rw [show (⟨r.heap.set id ((r.flagAt id).update v), r.names⟩ :
            Registry).flagAt p.2 = (r.flagAt id).update v by
        rw [hij]
        simp [flagAt, List.getD_eq_getElem?_getD, List.getElem?_set_self hlt]]
      rw [hij]
      simpa [Flag.update] using hname
    · rw [show (⟨r.heap.set id ((r.flagAt id).update v), r.names⟩ :
            Registry).flagAt p.2 = r.flagAt p.2 by
        simp [flagAt, List.getD_eq_getElem?_getD, List.getElem?_set_ne hij]]
      exact hname

end Registry

theorem Reachable.wf {r : Registry} (h : Reachable r) : Registry.WF r := by
  induction h with
  | empty => exact Registry.wf_empty
  | define r n v d _ ih => exact Registry.wf_define n v d ih
  | update r n v _ ih => exact Registry.wf_update n v ih

/-! ## Claims -/

/-- C1: `define` is idempotent by name: defining `n` with `(v1, d1)` and
then again with `(v2, d2)` leaves the flag's stored value `v1` and
description `d1` (the second call's arguments are discarded), both calls
return the same handle, and in every reachable state the registry holds
at most one flag per name. -/
theorem define_idempotent (r : Registry) (n : String) (v1 v2 : FlagValue)
    (d1 d2 : String) (h : r.hasFlag n = false) :
    ((r.define n v1 d1).2.define n v2 d2).1 = (r.define n v1 d1).1 ∧
    ((r.define n v1 d1).2.define n v2 d2).2 = (r.define n v1 d1).2 ∧
    ((r.define n v1 d1).2.flagAt (r.define n v1 d1).1).value = v1 ∧
    ((r.define n v1 d1).2.flagAt (r.define n v1 d1).1).description = d1 ∧
    (∀ r' : Registry, Reachable r' → (r'.names.map Prod.fst).Nodup) := by
  have hfind : r.find n = none := Registry.hasFlag_eq_false_iff.mp h
  have h1 : (r.define n v1 d1).1 = r.heap.length := by
    rw [Registry.define_of_none v1 d1 hfind]
  have hfind2 : ((r.define n v1 d1).2).find n = some (n, r.heap.length) :=
    Registry.find_define_self v1 d1 hfind
  refine ⟨?_, ?_, ?_, ?_, ?_⟩
  · rw [Registry.define_of_some v2 d2 hfind2, h1]
  · rw [Registry.define_of_some v2 d2 hfind2]
  · rw [h1, Registry.flagAt_define_self v1 d1 hfind]
  · rw [h1, Registry.flagAt_define_self v1 d1 hfind]
  · exact fun r' hr' => hr'.wf.2.1

/-- C1 witness: idempotent `define` on a concrete empty registry. -/
theorem define_idempotent_witness :
    ((Registry.empty.define "dark" (.b true) "desc").2.define "dark"
        (.b false) "other").2 = (Registry.empty.define "dark" (.b true) "desc").2 ∧
    ((Registry.empty.define "dark" (.b true) "desc").2.flagAt
        (Registry.empty.define "dark" (.b true) "desc").1).value = .b true :=
  ⟨(define_idempotent Registry.empty "dark" (.b true) (.b false) "desc" "other"
      rfl).2.1,
   (define_idempotent Registry.empty "dark" (.b true) (.b false) "desc" "other"
      rfl).2.2.1⟩

/-- C3: `get_value<T>(n)` returns a value exactly when the flag exists and
its currently stored kind is exactly `T`: for each of the four kinds, the
result is `some x` precisely when some handle for `n` is registered and the
pointed-to flag stores that kind with payload `x`; in every other case
(undefined name or different kind) the result is empty. -/
theorem get_value_kind_exact (r : Registry) (n : String) :
    (∀ x, flags.get_value_bool r n = some x ↔
      ∃ id, r.get n = some id ∧ (r.flagAt id).value = .b x) ∧
    (∀ x, flags.get_value_int r n = some x ↔
      ∃ id, r.get n = some id ∧ (r.flagAt id).value = .i x) ∧
    (∀ x, flags.get_value_double r n = some x ↔
      ∃ id, r.get n = some id ∧ (r.flagAt id).value = .d x) ∧
    (∀ x, flags.get_value_string r n = some x ↔
      ∃ id, r.get n = some id ∧ (r.flagAt id).value = .s x) := by
  refine ⟨fun x => ?_, fun x => ?_, fun x => ?_, fun x => ?_⟩ <;>
  · cases hg : r.get n with
    | none =>
      simp [flags.get_value_bool, flags.get_value_int, flags.get_value_double,
        flags.get_value_string, hg]
    | some id =>
      simp only [flags.get_value_bool, flags.get_value_int,
        flags.get_value_double, flags.get_value_string, hg, Option.some.injEq]
      constructor
      · intro hx
        refine ⟨id, rfl, ?_⟩
        cases hv : (r.flagAt id).value <;>
          simp [hv, FlagValue.getBool, FlagValue.getInt, FlagValue.getDouble,
            FlagValue.getString] at hx
        simp [hv, hx]
      · rintro ⟨id', hid', hv⟩
        obtain rfl : id = id' := by simpa using hid'
        simp [hv, FlagValue.getBool, FlagValue.getInt, FlagValue.getDouble,
          FlagValue.getString]

/-- C5: `is_enabled(n)` is `true` iff a flag named `n` exists, it stores a
boolean, and that boolean is `true`; in every other case (missing flag,
non-boolean kind, stored `false`) it is `false`, with those cases
indistinguishable to the caller. -/
theorem is_enabled_iff (r : Registry) (n : String) :
    flags.is_enabled r n = true ↔
      ∃ id, r.get n = some id ∧ (r.flagAt id).value = .b true := by
  cases hg : r.get n with
  | none => simp [flags.is_enabled, hg]
  | some id =>
    simp only [flags.is_enabled, hg]
    constructor
    · intro hx
      refine ⟨id, rfl, ?_⟩
      cases hv : (r.flagAt id).value <;>
        simp [hv, FlagValue.toBool, FlagValue.getBool] at hx ⊢
      exact hx
    · rintro ⟨id', hid', hv⟩
      obtain rfl : id = id' := by simpa using hid'
      simp [hv, FlagValue.toBool, FlagValue.getBool]

/-- C2: round-trip: for every supported kind and value `v` of that kind,
after `define(n, v)` on a fresh name or `update(n, v)` on an existing name,
`get_value` at `v`'s kind returns `v` exactly (each per-kind query result
equals the corresponding projection of `v`). -/
theorem round_trip (r : Registry) (n : String) (v : FlagValue) (d : String)
    (hr : Reachable r) :
    (r.hasFlag n = false →
      flags.get_value_bool (r.define n v d).2 n = v.getBool ∧
      flags.get_value_int (r.define n v d).2 n = v.getInt ∧
      flags.get_value_double (r.define n v d).2 n = v.getDouble ∧
      flags.get_value_string (r.define n v d).2 n = v.getString) ∧
    (r.hasFlag n = true →
      flags.get_value_bool (r.update n v).2 n = v.getBool ∧
      flags.get_value_int (r.update n v).2 n = v.getInt ∧
      flags.get_value_double (r.update n v).2 n = v.getDouble ∧
      flags.get_value_string (r.update n v).2 n = v.getString) := by
  constructor
  · intro h
    have hfind : r.find n = none := Registry.hasFlag_eq_false_iff.mp h
    have hget : ((r.define n v d).2).get n = some r.heap.length := by
      simp [Registry.get, Registry.find_define_self v d hfind]
    have hflag := Registry.flagAt_define_self v d hfind
    refine ⟨?_, ?_, ?_, ?_⟩ <;>
      simp [flags.get_value_bool, flags.get_value_int, flags.get_value_double,
        flags.get_value_string, hget, hflag]
  · intro h
    obtain ⟨p, hfind⟩ := Registry.hasFlag_eq_true_iff.mp h
    have hget : r.get n = some p.2 := by simp [Registry.get, hfind]
    have hlt : p.2 < r.heap.length :=
      (hr.wf.1 p (Registry.find_mem hfind).1).1
    have hget' : ((r.update n v).2).get n = some p.2 := by
      simp [Registry.get, Registry.find_update_preserved, hfind]
    have hflag : ((r.update n v).2).flagAt p.2 = (r.flagAt p.2).update v :=
      Registry.flagAt_update_self v hget hlt
    refine ⟨?_, ?_, ?_, ?_⟩ <;>
      simp [flags.get_value_bool, flags.get_value_int, flags.get_value_double,
        flags.get_value_string, hget', hflag, Flag.update]

/-- C2 witness: defining a fresh int flag and then updating it on the
concrete singleton registry round-trips both stored values. -/
theorem round_trip_witness :
    (flags.get_value_int (Registry.empty.define "max" (.i ⟨100, by decide⟩)
        "").2 "max" = (FlagValue.i ⟨100, by decide⟩).getInt) ∧
    (flags.get_value_int ((Registry.empty.define "max" (.i ⟨100, by decide⟩)
          "").2.update "max" (.i ⟨200, by decide⟩)).2 "max" =
      (FlagValue.i ⟨200, by decide⟩).getInt) :=
  ⟨((round_trip Registry.empty "max" (.i ⟨100, by decide⟩) ""
      Reachable.empty).1 rfl).2.1,
   ((round_trip (Registry.empty.define "max" (.i ⟨100, by decide⟩) "").2 "max"
      (.i ⟨200, by decide⟩) ""
      (Reachable.define _ "max" (.i ⟨100, by decide⟩) ""
        Reachable.empty)).2 rfl).2.1⟩

/-- C4: `update(n, v)` on an undefined name returns `false` and leaves the
registry completely unchanged (no flag is created); on a defined name it
returns `true` and stores `v` in that flag; the returned boolean is `true`
iff `n` was defined. -/
theorem update_unknown_name (r : Registry) (n : String) (v : FlagValue)
    (hr : Reachable r) :
    (r.hasFlag n = false → r.update n v = (false, r)) ∧
    (r.hasFlag n = true → (r.update n v).1 = true ∧
      ∃ id, r.get n = some id ∧ ((r.update n v).2.flagAt id).value = v) ∧
    ((r.update n v).1 = true ↔ r.hasFlag n = true) := by
  have hcase := Registry.hasFlag_eq_false_iff (r := r) (n := n)
  refine ⟨?_, ?_, ?_⟩
  · intro h
    have hget : r.get n = none := by
      simp [Registry.get, hcase.mp h]
    exact Registry.update_of_none v hget
  · intro h
    obtain ⟨p, hfind⟩ := Registry.hasFlag_eq_true_iff.mp h
    have hget : r.get n = some p.2 := by simp [Registry.get, hfind]
    have hlt : p.2 < r.heap.length :=
      (hr.wf.1 p (Registry.find_mem hfind).1).1
    refine ⟨by rw [Registry.update_of_some v hget], p.2, hget, ?_⟩
    rw [Registry.flagAt_update_self v hget hlt]
    rfl
  · cases h : r.hasFlag n with
    | false =>
      have hget : r.get n = none := by simp [Registry.get, hcase.mp h]
      rw [Registry.update_of_none v hget]
    | true =>
      obtain ⟨p, hfind⟩ := Registry.hasFlag_eq_true_iff.mp h
      have hget : r.get n = some p.2 := by simp [Registry.get, hfind]
      rw [Registry.update_of_some v hget]

/-- C4 witness: updating an undefined name on the empty registry returns
`false` and changes nothing; updating a defined name returns `true`. -/
theorem update_unknown_name_witness :
    Registry.empty.update "ghost" (.b true) = (false, Registry.empty) ∧
    ((Registry.empty.define "dm" (.b false) "").2.update "dm" (.b true)).1 =
      true :=
  ⟨(update_unknown_name Registry.empty "ghost" (.b true) Reachable.empty).1 rfl,
   ((update_unknown_name (Registry.empty.define "dm" (.b false) "").2 "dm"
      (.b true)
      (Reachable.define _ "dm" (.b false) "" Reachable.empty)).2.1 rfl).1⟩

/-- C6: kind drift is permitted: whatever kind a defined flag currently
stores, `update` with a value `w` of any kind succeeds, replaces the
stored value entirely (kind and contents) while keeping name and
description, and afterwards `get_value` at `w`'s kind returns `w`. -/
theorem kind_drift (r : Registry) (n : String) (w : FlagValue)
    (hr : Reachable r) (h : r.hasFlag n = true) :
    (r.update n w).1 = true ∧
    flags.get_value_bool (r.update n w).2 n = w.getBool ∧
    flags.get_value_int (r.update n w).2 n = w.getInt ∧
    flags.get_value_double (r.update n w).2 n = w.getDouble ∧
    flags.get_value_string (r.update n w).2 n = w.getString ∧
    (∀ f : Flag, f.update w = ⟨f.name, w, f.description⟩) := by
  obtain ⟨p, hfind⟩ := Registry.hasFlag_eq_true_iff.mp h
  have hget : r.get n = some p.2 := by simp [Registry.get, hfind]
  have hlt : p.2 < r.heap.length :=
    (hr.wf.1 p (Registry.find_mem hfind).1).1
  have hget' : ((r.update n w).2).get n = some p.2 := by
    simp [Registry.get, Registry.find_update_preserved, hfind]
  have hflag : ((r.update n w).2).flagAt p.2 = (r.flagAt p.2).update w :=
    Registry.flagAt_update_self w hget hlt
  refine ⟨by rw [Registry.update_of_some w hget], ?_, ?_, ?_, ?_,
    fun f => rfl⟩ <;>
    simp [flags.get_value_bool, flags.get_value_int, flags.get_value_double,
      flags.get_value_string, hget', hflag, Flag.update]

/-- C6 witness: a concrete flag defined as an int and updated to a string:
the update succeeds and the string query returns the new value. -/
theorem kind_drift_witness :
    ((Registry.empty.define "mode" (.i ⟨1, by decide⟩) "m").2.update "mode"
        (.s "fast")).1 = true ∧
    flags.get_value_string ((Registry.empty.define "mode" (.i ⟨1, by decide⟩)
        "m").2.update "mode" (.s "fast")).2 "mode" =
      (FlagValue.s "fast").getString :=
  ⟨(kind_drift (Registry.empty.define "mode" (.i ⟨1, by decide⟩) "m").2 "mode"
      (.s "fast")
      (Reachable.define _ "mode" (.i ⟨1, by decide⟩) "m" Reachable.empty)
      rfl).1,
   (kind_drift (Registry.empty.define "mode" (.i ⟨1, by decide⟩) "m").2 "mode"
      (.s "fast")
      (Reachable.define _ "mode" (.i ⟨1, by decide⟩) "m" Reachable.empty)
      rfl).2.2.2.2.1⟩

/-- C7 counterexample: the integer alternative of `FlagValue` is the
platform `int` (32 bits), so the signed 64-bit value `2^31` can never be
stored as a flag's integer value: no `FlagValue` yields it under the
integer projection. -/
theorem int_not_64bit :
    ¬ ∃ (fv : FlagValue) (c : CInt), fv.getInt = some c ∧ c.val = 2 ^ 31 := by
  rintro ⟨fv, c, -, hval⟩
  exact absurd (hval ▸ c.property.2) (lt_irrefl _)

/-- C7 (amended): the integer variant of `FlagValue` is the platform
`int`, a 32-bit type: exactly the integers in `[-2^31, 2^31)` are
storable, and for each storable value, defining a fresh flag with it and
reading it back via the integer kind returns it exactly, with no
truncation or wraparound. -/
theorem int32_round_trip (r : Registry) (n : String) (c : CInt) (d : String)
    (h : r.hasFlag n = false) :
    (-(2 ^ 31) ≤ c.val ∧ c.val < 2 ^ 31) ∧
    flags.get_value_int (r.define n (.i c) d).2 n = some c := by
  have hfind : r.find n = none := Registry.hasFlag_eq_false_iff.mp h
  have hget : ((r.define n (.i c) d).2).get n = some r.heap.length := by
    simp [Registry.get, Registry.find_define_self (FlagValue.i c) d hfind]
  refine ⟨c.property, ?_⟩
  simp [flags.get_value_int, hget,
    Registry.flagAt_define_self (FlagValue.i c) d hfind, FlagValue.getInt]

/-- C7 witness: the largest storable integer, `2^31 - 1`, round-trips on
the concrete empty registry. -/
theorem int32_round_trip_witness :
    (-(2 ^ 31) ≤ (⟨2 ^ 31 - 1, by decide⟩ : CInt).val ∧
      (⟨2 ^ 31 - 1, by decide⟩ : CInt).val < 2 ^ 31) ∧
    flags.get_value_int (Registry.empty.define "big"
        (.i ⟨2 ^ 31 - 1, by decide⟩) "").2 "big" =
      some ⟨2 ^ 31 - 1, by decide⟩ :=
  int32_round_trip Registry.empty "big" ⟨2 ^ 31 - 1, by decide⟩ "" rfl

/-- C8: `get_all` is a complete snapshot: in every reachable state it
returns exactly one handle per map entry (its length equals the number of
defined flags and it has no duplicate handles), and a name is defined iff
some returned handle points to a flag carrying that name. -/
theorem get_all_complete (r : Registry) (hr : Reachable r) :
    r.get_all.length = r.names.length ∧
    r.get_all.Nodup ∧
    (∀ n, r.hasFlag n = true ↔ ∃ id ∈ r.get_all, (r.flagAt id).name = n) := by
  obtain ⟨hmap, -, hids⟩ := hr.wf
  refine ⟨by simp [Registry.get_all], hids, fun n => ?_⟩
  constructor
  · intro h
    obtain ⟨p, hfind⟩ := Registry.hasFlag_eq_true_iff.mp h
    obtain ⟨hp, hkey⟩ := Registry.find_mem hfind
    exact ⟨p.2, List.mem_map.mpr ⟨p, hp, rfl⟩, (hmap p hp).2.trans hkey⟩
  · rintro ⟨id, hid, hname⟩
    obtain ⟨p, hp, hpid⟩ := List.mem_map.mp hid
    have : (r.find n).isSome := by
      apply List.find?_isSome.mpr
      refine ⟨p, hp, ?_⟩
      have : p.1 = n := by
        rw [← (hmap p hp).2, hpid]
        exact hname
      simp [this]
    simpa [Registry.hasFlag] using this

/-- C8 witness: on a concrete registry with three defined flags, the
snapshot has three distinct handles and covers the name "b". -/
theorem get_all_complete_witness :
    (((Registry.empty.define "a" (.b true) "").2.define "b"
        (.i ⟨1, by decide⟩) "").2.define "c" (.s "x") "").2.get_all.length =
      (((Registry.empty.define "a" (.b true) "").2.define "b"
        (.i ⟨1, by decide⟩) "").2.define "c" (.s "x") "").2.names.length ∧
    ∃ id ∈ (((Registry.empty.define "a" (.b true) "").2.define "b"
        (.i ⟨1, by decide⟩) "").2.define "c" (.s "x") "").2.get_all,
      ((((Registry.empty.define "a" (.b true) "").2.define "b"
        (.i ⟨1, by decide⟩) "").2.define "c" (.s "x") "").2.flagAt id).name =
        "b" :=
  ⟨(get_all_complete _ (Reachable.define _ "c" (.s "x") ""
      (Reachable.define _ "b" (.i ⟨1, by decide⟩) ""
        (Reachable.define _ "a" (.b true) "" Reachable.empty)))).1,
   ((get_all_complete _ (Reachable.define _ "c" (.s "x") ""
      (Reachable.define _ "b" (.i ⟨1, by decide⟩) ""
        (Reachable.define _ "a" (.b true) "" Reachable.empty)))).2.2
      "b").mp rfl⟩

/-- C9: handle identity is stable: the handle returned by the first
`define(n, ...)` is the one returned by a subsequent `get(n)` and by any
repeated `define(n, ...)`; in any reachable state, a registered handle
survives every later `define` and `update` unchanged, and an `update`
performed through the registry is observable through the earlier handle's
value. -/
theorem handle_identity (r : Registry) (n : String) (v : FlagValue)
    (d : String) (h : r.hasFlag n = false) :
    ((r.define n v d).2.get n = some (r.define n v d).1 ∧
      ∀ v2 d2, ((r.define n v d).2.define n v2 d2).1 = (r.define n v d).1) ∧
    (∀ r' : Registry, Reachable r' → ∀ m id, r'.get m = some id →
      (∀ n2 v2 d2, ((r'.define n2 v2 d2).2).get m = some id) ∧
      (∀ n2 v2, ((r'.update n2 v2).2).get m = some id) ∧
      (∀ v2, (((r'.update m v2).2).flagAt id).value = v2)) := by
  have hfind : r.find n = none := Registry.hasFlag_eq_false_iff.mp h
  have h1 : (r.define n v d).1 = r.heap.length := by
    rw [Registry.define_of_none v d hfind]
  have hfind2 : ((r.define n v d).2).find n = some (n, r.heap.length) :=
    Registry.find_define_self v d hfind
  refine ⟨⟨by simp [Registry.get, hfind2, h1], fun v2 d2 => ?_⟩,
    fun r' hr' m id hget => ?_⟩
  · rw [Registry.define_of_some v2 d2 hfind2, h1]
  · obtain ⟨p, hfind', hpid⟩ := Registry.get_eq_some_iff.mp hget
    have hlt : p.2 < r'.heap.length :=
      (hr'.wf.1 p (Registry.find_mem hfind').1).1
    refine ⟨fun n2 v2 d2 => ?_, fun n2 v2 => ?_, fun v2 => ?_⟩
    · simp [Registry.get, Registry.find_define_preserved v2 d2 hfind', hpid]
    · simp [Registry.get, Registry.find_update_preserved, hfind', hpid]
    · rw [← hpid, Registry.flagAt_update_self v2 (hpid ▸ hget) hlt]
      rfl

/-- C9 witness: on a concrete registry, the handle from the first define
is returned again by a repeated define, and an update through the
registry is visible through that handle. -/
theorem handle_identity_witness :
    ((Registry.empty.define "f" (.b false) "").2.define "f" (.b true)
        "").1 = (Registry.empty.define "f" (.b false) "").1 ∧
    ((((Registry.empty.define "f" (.b false) "").2).update "f"
        (.b true)).2.flagAt (Registry.empty.define "f" (.b false) "").1).value
      = .b true :=
  ⟨(handle_identity Registry.empty "f" (.b false) "" rfl).1.2 (.b true) "",
   ((handle_identity Registry.empty "f" (.b false) "" rfl).2
      (Registry.empty.define "f" (.b false) "").2
      (Reachable.define _ "f" (.b false) "" Reachable.empty)
      "f" (Registry.empty.define "f" (.b false) "").1
      (handle_identity Registry.empty "f" (.b false) "" rfl).1.1).2.2
      (.b true)⟩

/-- C10: key-name consistency: in every reachable state, a handle
returned by `get(n)` points to a flag whose stored name is `n`; a fresh
`define(n, v, d)` installs exactly name `n` and description `d`; and
neither `define` nor `update` ever changes the name or description of an
existing flag. -/
theorem key_name_consistency (r : Registry) (hr : Reachable r) :
    (∀ n id, r.get n = some id → (r.flagAt id).name = n) ∧
    (∀ n v d, r.hasFlag n = false →
      ((r.define n v d).2.flagAt (r.define n v d).1).name = n ∧
      ((r.define n v d).2.flagAt (r.define n v d).1).description = d) ∧
    (∀ id, id < r.heap.length →
      (∀ m v d, ((r.define m v d).2.flagAt id).name = (r.flagAt id).name ∧
        ((r.define m v d).2.flagAt id).description =
          (r.flagAt id).description) ∧
      (∀ m v, ((r.update m v).2.flagAt id).name = (r.flagAt id).name ∧
        ((r.update m v).2.flagAt id).description =
          (r.flagAt id).description)) := by
  refine ⟨fun n id hget => ?_, fun n v d h => ?_, fun id hlt => ⟨?_, ?_⟩⟩
  · obtain ⟨p, hfind, hpid⟩ := Registry.get_eq_some_iff.mp hget
    obtain ⟨hp, hkey⟩ := Registry.find_mem hfind
    rw [← hpid]
    exact (hr.wf.1 p hp).2.trans hkey
  · have hfind : r.find n = none := Registry.hasFlag_eq_false_iff.mp h
    have h1 : (r.define n v d).1 = r.heap.length := by
      rw [Registry.define_of_none v d hfind]
    rw [h1, Registry.flagAt_define_self v d hfind]
    exact ⟨rfl, rfl⟩
  · intro m v d
    rw [Registry.flagAt_define_preserved v d hlt]
    exact ⟨rfl, rfl⟩
  · intro m v
    cases hg : r.get m with
    | none => rw [Registry.update_of_none v hg]; exact ⟨rfl, rfl⟩
    | some j =>
      by_cases hij : j = id
      · subst hij
        rw [Registry.flagAt_update_self v hg hlt]
        exact ⟨rfl, rfl⟩
      · rw [Registry.flagAt_update_ne v hg hij]
        exact ⟨rfl, rfl⟩

/-- C10 witness: on a concrete registry the handle for "a" carries name
"a", and an update leaves name and description unchanged. -/
theorem key_name_consistency_witness :
    (((Registry.empty.define "a" (.b true) "da").2.flagAt 0).name = "a") ∧
    ((((Registry.empty.define "a" (.b true) "da").2.update "a"
        (.s "z")).2.flagAt 0).description =
      ((Registry.empty.define "a" (.b true) "da").2.flagAt 0).description) :=
  ⟨(key_name_consistency (Registry.empty.define "a" (.b true) "da").2
      (Reachable.define _ "a" (.b true) "da" Reachable.empty)).1 "a" 0 rfl,
   (((key_name_consistency (Registry.empty.define "a" (.b true) "da").2
      (Reachable.define _ "a" (.b true) "da" Reachable.empty)).2.2 0
      (by decide)).2 "a" (.s "z")).2⟩

end Flagpp
